import Mathlib

/-!
Verification of the sw_logger NITS viewer core (Rust sources under
`src/viewer/src/`): the bounded series queue (`QueueMaxLen`), the NITS
channel-number mapping (`NitsRelativeCarCount::get_channel_number`, which
exists in two revisions: `nits.rs` and `values.rs`), the time-series store
(`Values`) with its ingestion (`add_data`), retention resize (`set_max_len`)
and secondary-index rebuild (`update_nits`), and the CSV import/export
(`load_csv` / `save_csv`).

Conventions of the shallow embedding:
* `u32` values are `Nat`; wrapping 32-bit arithmetic is written out as
  explicit `% 4294967296` (`2 ^ 32`) where the Rust code can overflow.
* `i32` values are `Int`; the cast `u32 as i32` is `toI32`.
* `f32` samples are carried as their raw 32-bit patterns (`Nat`): the store
  only moves them around and calls `to_bits` on them, so representing a
  sample by its bit pattern is faithful (`to_bits` becomes the identity).
* A Rust panic (out-of-bounds `VecDeque::drain`, a failed `unwrap`) is
  modelled by returning `none`; fallible operations return `Option`/`Except`.
* `BTreeMap`/`HashMap` are association lists, `BTreeSet` is `Finset`.
-/

/-- Wrapping 32-bit subtraction: Rust release-profile `a - b` on `u32`. -/
def sub32 (a b : Nat) : Nat :=
  (a % 4294967296 + (4294967296 - b % 4294967296)) % 4294967296

/-- The cast `u32 as i32` (two's-complement reinterpretation). -/
def toI32 (n : Nat) : Int :=
  if n % 4294967296 < 2147483648 then (n % 4294967296 : Int)
  else (n % 4294967296 : Int) - 4294967296

/-- Error type of `range_check.rs::OutOfRangeError`: offending value, bound
name, and both optional bounds (bound, inclusive?). -/
structure OutOfRangeErr where
  name : String
  value : Int
  min : Option (Int × Bool)
  max : Option (Int × Bool)
deriving DecidableEq, Repr

/-- Embedding of `range_check.rs::RangeCheck` (instantiated at `i32`):
a value plus an optional lower and upper bound, each with an
inclusive/exclusive flag. -/
structure RangeCheck where
  value : Int
  min : Option (Int × Bool)
  max : Option (Int × Bool)

/-- `RangeCheck::check` from `range_check.rs` lines 33-57. -/
def RangeCheck.check (rc : RangeCheck) : Bool :=
  let okMin :=
    match rc.min with
    | some (m, true) => decide (¬ rc.value < m)
    | some (m, false) => decide (¬ rc.value ≤ m)
    | none => true
  let okMax :=
    match rc.max with
    | some (m, true) => decide (¬ m < rc.value)
    | some (m, false) => decide (¬ m ≤ rc.value)
    | none => true
  okMin && okMax

/-- `RangeCheck::check_result` from `range_check.rs` lines 59-70. -/
def RangeCheck.checkResult (rc : RangeCheck) (name : String) :
    Except OutOfRangeErr Unit :=
  if rc.check then Except.ok ()
  else Except.error ⟨name, rc.value, rc.min, rc.max⟩

/-- `RangeCheck::upper_and_lower_bound` (`range_check.rs` lines 25-31); the
`RangeCheck::new(value, min, max)` constructor used by `values.rs` is this,
the only two-bound constructor the module provides. -/
def RangeCheck.upperAndLowerBound (value : Int) (lo hi : Int × Bool) :
    RangeCheck :=
  ⟨value, some lo, some hi⟩

/-- Modelled from the spec: the free function `range_check(&(lo..=hi), v)`
imported by `nits.rs` is not among the provided sources (the provided
`range_check.rs` only has the `RangeCheck` struct). Per spec section 4.1 the
Bounds Validator reports whether the value satisfies both inclusive bounds
and otherwise produces an `OutOfRangeError` carrying the value and bounds. -/
def rangeCheckIncl (lo hi v : Int) : Except OutOfRangeErr Unit :=
  if lo ≤ v ∧ v ≤ hi then Except.ok ()
  else Except.error ⟨"", v, some (lo, true), some (hi, true)⟩

/-- `NitsRelativeCarCount::get_channel_number` as in `nits.rs` lines 13-30:
inclusive checks `relative ∈ [-15,15]`, `front ∈ [0,15]`, `back ∈ [0,15]`,
then the channel formula in wrapping `u32` arithmetic. -/
def Nits.getChannelNumber (c : Int) (front back : Nat) :
    Except OutOfRangeErr Nat := do
  rangeCheckIncl (-15) 15 c
  rangeCheckIncl 0 15 (toI32 front)
  rangeCheckIncl 0 15 (toI32 back)
  if c < 0 then
    pure (sub32 ((1 + front) % 4294967296) c.natAbs)
  else if 0 < c then
    pure (sub32 ((31 + c.natAbs) % 4294967296) back)
  else
    pure 16

/-- `NitsRelativeCarCount::get_channel_number` as in `values.rs` lines
80-100: `relative` checked inclusively in `[-15,15]`, `car_count_front`
checked in `[0,15)` (upper bound exclusive), and the third check re-checks
`car_count_front` under the name `car_count_back` exactly as the source
does; then the same wrapping formula. -/
def ValuesRs.getChannelNumber (c : Int) (front back : Nat) :
    Except OutOfRangeErr Nat := do
  (RangeCheck.upperAndLowerBound c (-15, true) (15, true)).checkResult
    "NitsRelativeCarCount"
  (RangeCheck.upperAndLowerBound (toI32 front) (0, true) (15, false)).checkResult
    "car_count_front"
  (RangeCheck.upperAndLowerBound (toI32 front) (0, true) (15, false)).checkResult
    "car_count_back"
  if c < 0 then
    pure (sub32 ((1 + front) % 4294967296) c.natAbs)
  else if 0 < c then
    pure (sub32 ((31 + c.natAbs) % 4294967296) back)
  else
    pure 16

/-- Embedding of `values.rs::QueueMaxLen<T>`: a `VecDeque` (list, oldest
element first) together with the configured capacity `max_len`. -/
structure QueueMaxLen (α : Type) where
  vec : List α
  maxLen : Nat
deriving DecidableEq, Repr

/-- `QueueMaxLen::with_capacity` (`values.rs` lines 26-31). -/
def QueueMaxLen.withCapacity (α : Type) (maxLen : Nat) : QueueMaxLen α :=
  ⟨[], maxLen⟩

/-- `QueueMaxLen::push` (`values.rs` lines 55-61): evicts
`new_len - max_len` oldest elements with `VecDeque::drain` before appending.
`drain(0..k)` panics when `k` exceeds the deque length, which is modelled by
returning `none`. -/
def QueueMaxLen.push (q : QueueMaxLen α) (v : α) : Option (QueueMaxLen α) :=
  if q.vec.length + 1 > q.maxLen then
    if q.vec.length + 1 - q.maxLen > q.vec.length then none
    else some ⟨q.vec.drop (q.vec.length + 1 - q.maxLen) ++ [v], q.maxLen⟩
  else some ⟨q.vec ++ [v], q.maxLen⟩

/-- `QueueMaxLen::extend` (`values.rs` lines 63-69): bulk variant of `push`
with the same `drain` call, hence the same panic (`none`) when the batch is
larger than what eviction can make room for. -/
def QueueMaxLen.extend (q : QueueMaxLen α) (vs : List α) :
    Option (QueueMaxLen α) :=
  if q.vec.length + vs.length > q.maxLen then
    if q.vec.length + vs.length - q.maxLen > q.vec.length then none
    else some ⟨q.vec.drop (q.vec.length + vs.length - q.maxLen) ++ vs, q.maxLen⟩
  else some ⟨q.vec ++ vs, q.maxLen⟩

/-- `QueueMaxLen::set_max_len` (`values.rs` lines 45-53): drains the oldest
excess from the front when shrinking (`reserve` on growth is a no-op for the
contents). -/
def QueueMaxLen.setMaxLen (q : QueueMaxLen α) (m : Nat) : QueueMaxLen α :=
  if q.vec.length > m then ⟨q.vec.drop (q.vec.length - m), m⟩
  else ⟨q.vec, m⟩

/-- `QueueMaxLen::back` (`values.rs` lines 71-73). -/
def QueueMaxLen.back (q : QueueMaxLen α) : Option α :=
  q.vec.getLast?

/-- Association-list lookup: the value bound to the first occurrence of the
key (models `BTreeMap::get` / `HashMap::get`, whose keys are unique). -/
def lookupA [DecidableEq κ] (l : List (κ × β)) (k : κ) : Option β :=
  match l with
  | [] => none
  | p :: rest => if p.1 = k then some p.2 else lookupA rest k

/-- Replace the value bound to an existing key in place (models updating a
map entry obtained by lookup). -/
def setA [DecidableEq κ] (l : List (κ × β)) (k : κ) (v : β) : List (κ × β) :=
  l.map (fun p => if p.1 = k then (k, v) else p)

/-- `insert` of `BTreeMap`/`HashMap`: replace the binding when the key is
present, otherwise add a new one. -/
def upsertA [DecidableEq κ] (l : List (κ × β)) (k : κ) (v : β) :
    List (κ × β) :=
  if (lookupA l k).isSome then setA l k v else l ++ [(k, v)]

/-- `NitsCommand::get_command_type` (`values.rs` lines 119-121):
`word >> 24 & 0xFF`. -/
def commandType (w : Nat) : Nat :=
  w / 16777216 % 256

/-- `NitsCommand::get_payload` (`values.rs` lines 122-124):
`word & 0xFFFFFF`. -/
def payload (w : Nat) : Nat :=
  w % 16777216

/-- `values.rs::NitsTick`: the commonline word plus the map from relative
car count to the command word received from that position. The map is built
by `BTreeMap::insert` with strictly increasing keys, so the association
list is in key order, matching `BTreeMap` iteration. -/
structure NitsTick where
  commonline : Nat
  commands : List (Int × Nat)
deriving DecidableEq, Repr

/-- Embedding of `values.rs::Values`: per-channel series, the retention
length currently configured in the shared `Settings`, the decoded timeline,
and the two secondary index sets. -/
structure Values where
  values : List (String × QueueMaxLen Nat)
  settingsMaxLen : Nat
  nitsTimeline : QueueMaxLen NitsTick
  nitsSenders : Finset Int
  nitsCommandTypes : Finset Nat
deriving DecidableEq

/-- `Values::new` (`values.rs` lines 190-199), with `m` the retention
length read from the settings. -/
def Values.new (m : Nat) : Values :=
  ⟨[], m, ⟨[], m⟩, ∅, ∅⟩

/-- The channel name `format!("NITS N{:02}", i)`. -/
def nitsName (i : Nat) : String :=
  "NITS N" ++ (if i < 10 then "0" ++ toString i else toString i)

/-- The loop range `-(car_count_front as i32)..=(car_count_back as i32)`
of `values.rs` line 245, listed in increasing order. -/
def listRelatives (front back : Nat) : List Int :=
  (List.range (front + back + 1)).map (fun t => (t : Int) - (front : Int))

/-- Body of the per-relative-position loop of `Values::add_data`
(`values.rs` lines 245-261): compute the channel number, look the channel up
in the batch, read the time-aligned sample, and on success record the sender
position, the command type and the command; any failure skips the position.
The accumulator is (senders set, command-type set, tick command map). -/
def tickStep (nitsData : List (Nat × List Nat)) (len i : Nat)
    (front back : Nat) (acc : Finset Int × Finset Nat × List (Int × Nat))
    (j : Int) : Finset Int × Finset Nat × List (Int × Nat) :=
  match ValuesRs.getChannelNumber j front back with
  | Except.ok ch =>
    match lookupA nitsData ch with
    | some channel =>
      match channel[(i + channel.length - len)]? with
      | some c =>
        (insert j acc.1, insert (commandType c) acc.2.1, upsertA acc.2.2 j c)
      | none => acc
    | none => acc
  | Except.error _ => acc

/-- One iteration of the commonline loop of `Values::add_data` (`values.rs`
lines 236-267): record the commonline command type, unpack
`car_count_front = payload & 0xF` and `car_count_back = payload >> 5 & 0xF`,
assemble the tick over every relative position, and push it onto the
timeline (whose `push` can panic, hence `Option`). -/
def Values.procCommonline (nitsData : List (Nat × List Nat)) (len : Nat)
    (s : Values) (iw : Nat × Nat) : Option Values :=
  let w := iw.2
  let types0 := insert (commandType w) s.nitsCommandTypes
  let front := payload w % 16
  let back := payload w / 32 % 16
  let res := (listRelatives front back).foldl
    (tickStep nitsData len iw.1 front back) (s.nitsSenders, types0, [])
  (s.nitsTimeline.push ⟨w, res.2.2⟩).map (fun tl =>
    { s with nitsSenders := res.1, nitsCommandTypes := res.2.1,
             nitsTimeline := tl })

/-- The NITS half of `Values::add_data` (`values.rs` lines 225-268):
collect the bit patterns of channels `NITS N00`..`NITS N31`, then decode one
tick per new `NITS N32` sample. -/
def Values.decodePhase (s : Values) (data : List (String × List Nat)) :
    Option Values :=
  match lookupA data "NITS N32" with
  | some n32 =>
    n32.enum.foldlM
      (Values.procCommonline
        ((List.range 32).filterMap
          (fun i => (lookupA data (nitsName i)).map (fun ch => (i, ch))))
        n32.length) s
  | none => some s

/-- `Values::push` (`values.rs` lines 215-222): extend the channel's series,
creating it with the current retention length when absent. -/
def Values.pushKey (s : Values) (k : String) (vs : List Nat) : Option Values :=
  match lookupA s.values k with
  | some q => (q.extend vs).map (fun q2 => { s with values := setA s.values k q2 })
  | none =>
    ((QueueMaxLen.withCapacity Nat s.settingsMaxLen).extend vs).map
      (fun q2 => { s with values := s.values ++ [(k, q2)] })

/-- `Values::add_data` (`values.rs` lines 224-274): the NITS decoding phase
followed by the ordinary per-channel pushes (the batch is a `HashMap`, so
its keys are distinct; the fold order is irrelevant for distinct keys). -/
def Values.addData (s : Values) (data : List (String × List Nat)) :
    Option Values :=
  (s.decodePhase data).bind
    (fun s1 => data.foldlM (fun t kv => t.pushKey kv.1 kv.2) s1)

/-- Per-tick step of `Values::update_nits` (`values.rs` lines 280-287):
record the commonline command type, then every sender and per-car command
type of the tick. -/
def scanTickStep (acc : Finset Int × Finset Nat) (t : NitsTick) :
    Finset Int × Finset Nat :=
  t.commands.foldl
    (fun a p => (insert p.1 a.1, insert (commandType p.2) a.2))
    (acc.1, insert (commandType t.commonline) acc.2)

/-- `Values::update_nits` (`values.rs` lines 276-288): reset both index
sets and rebuild them by scanning the retained timeline. -/
def Values.updateNits (s : Values) : Values :=
  let r := s.nitsTimeline.vec.foldl scanTickStep (∅, ∅)
  { s with nitsSenders := r.1, nitsCommandTypes := r.2 }

/-- `Values::set_max_len` (`values.rs` lines 205-213) with `m` the new
retention length read from the settings: resize every series and the
timeline, then rebuild the secondary indices. -/
def Values.setMaxLen (s : Values) (m : Nat) : Values :=
  Values.updateNits
    { s with values := s.values.map (fun kv => (kv.1, kv.2.setMaxLen m)),
             nitsTimeline := s.nitsTimeline.setMaxLen m,
             settingsMaxLen := m }

/-- `Values::contains_key` (`values.rs` lines 290-292). -/
def Values.containsKey (s : Values) (k : String) : Bool :=
  (lookupA s.values k).isSome

/-- `Values::keys` (`values.rs` lines 294-296). -/
def Values.keysList (s : Values) : List String :=
  s.values.map Prod.fst

/-- `Values::values_for_key` (`values.rs` lines 305-310), as the retained
sample list (oldest first). -/
def Values.valuesForKey (s : Values) (k : String) : Option (List Nat) :=
  (lookupA s.values k).map QueueMaxLen.vec

/-- `Values::get_last_value_for_key` (`values.rs` lines 312-318). -/
def Values.getLastValueForKey (s : Values) (k : String) : Option Nat :=
  (lookupA s.values k).bind QueueMaxLen.back

/-!
CSV interchange. A CSV file is modelled as a list of lines, each line as
its list of comma-separated cells — exactly the decomposition
`BufRead::lines` + `str::split(',')` performs on the written text, provided
no formatted value or key contains `,` or a newline (f32 `Display` output
never does). `save_csv` writes a line as a sequence of raw `","` and text
writes; the model mirrors each write against the cell structure of the
resulting text: writing `","` closes the current cell, writing text appends
to it. The numeric formatting (`{}` on f32) and parsing (`str::parse`) are
parameters `fmt` / `parse`, since samples are carried as bit patterns. -/

/-- One data row of `Values::save_csv` (`values.rs` lines 375-393),
accumulated as (closed cells, current cell); `i` is the running column
index (the source writes no leading `,` only for column 0). -/
def emitRowGo (fmt : Nat → String) (maxLen index i : Nat)
    (done : List String) (cur : String) :
    List (List Nat) → List String
  | [] => done ++ [cur]
  | vec :: rest =>
    if maxLen - vec.length > index then
      emitRowGo fmt maxLen index (i + 1) (done ++ [cur]) "" rest
    else
      match vec[(index - (maxLen - vec.length))]? with
      | some v =>
        if i = 0 then
          emitRowGo fmt maxLen index (i + 1) done (cur ++ fmt v) rest
        else
          emitRowGo fmt maxLen index (i + 1) (done ++ [cur]) (fmt v) rest
      | none => emitRowGo fmt maxLen index (i + 1) (done ++ [cur]) "" rest

/-- Cells of one data row of `save_csv`: every column right-aligned to the
common trailing end, blank cells for columns whose series is shorter. -/
def emitRow (fmt : Nat → String) (cols : List (List Nat))
    (maxLen index : Nat) : List String :=
  emitRowGo fmt maxLen index 0 [] "" cols

/-- `Values::save_csv` (`values.rs` lines 354-396) as the cell structure of
the written file: the header holds the requested keys that exist, then one
row per index up to the longest selected series (the key filter, the column
collection and the running maximum are written out in place of the single
pass the source makes over the keys). -/
def Values.saveCsvLines (s : Values) (fmt : Nat → String)
    (ks : List String) : List (List String) :=
  (ks.filter (fun k => (lookupA s.values k).isSome)) ::
    (List.range
      (((ks.filter (fun k => (lookupA s.values k).isSome)).filterMap
        (fun k => s.valuesForKey k)).foldl (fun m v => max m v.length) 0)).map
      (fun index =>
        emitRow fmt
          ((ks.filter (fun k => (lookupA s.values k).isSome)).filterMap
            (fun k => s.valuesForKey k))
          (((ks.filter (fun k => (lookupA s.values k).isSome)).filterMap
            (fun k => s.valuesForKey k)).foldl (fun m v => max m v.length) 0)
          index)

/-- One data line of `Values::load_csv` (`values.rs` lines 340-345): zip the
header keys with the line's cells, parse each cell with
`parse::<f32>().unwrap()` (a parse failure panics: `none`), and build the
batch `HashMap`. -/
def buildData (parse : String → Option Nat) (keys : List String)
    (row : List String) : Option (List (String × List Nat)) :=
  (keys.zip row).foldlM
    (fun acc kv => (parse kv.2).map (fun v => upsertA acc kv.1 [v])) []

/-- `Values::load_csv` (`values.rs` lines 332-352) over the file's lines:
the first line is the header, every further line is ingested as one
single-sample batch via `add_data`. (A file that fails to open is silently
ignored by the source and is outside this model.) -/
def Values.loadCsvLines (s : Values) (parse : String → Option Nat) :
    List (List String) → Option Values
  | [] => some s
  | keys :: rows =>
    rows.foldlM
      (fun st row => (buildData parse keys row).bind (fun d => st.addData d)) s

/-! Helper lemmas. -/

lemma toI32_small {n : Nat} (h : n ≤ 15) : toI32 n = (n : Int) := by
  unfold toI32
  rw [Nat.mod_eq_of_lt (by omega)]
  rw [if_pos (by omega)]
  omega

/-- Evaluation of the `nits.rs` channel mapping when all three range checks
pass. -/
lemma Nits.getChannelNumber_valid (c : Int) (f b : Nat) (hf : f ≤ 15)
    (hb : b ≤ 15) (hc1 : -15 ≤ c) (hc2 : c ≤ 15) :
    Nits.getChannelNumber c f b =
      (if c < 0 then Except.ok (sub32 ((1 + f) % 4294967296) c.natAbs)
       else if 0 < c then Except.ok (sub32 ((31 + c.natAbs) % 4294967296) b)
       else Except.ok 16) := by
  have h2 : (0 : Int) ≤ (f : Int) ∧ (f : Int) ≤ 15 := by omega
  have h3 : (0 : Int) ≤ (b : Int) ∧ (b : Int) ≤ 15 := by omega
  simp only [Nits.getChannelNumber, rangeCheckIncl, toI32_small hf,
    toI32_small hb]
  rw [if_pos ⟨hc1, hc2⟩]
  simp only [if_pos h2, if_pos h3]
  rfl

/-- The `nits.rs` channel mapping rejects an out-of-range `relative`. -/
lemma Nits.getChannelNumber_invalid (c : Int) (f b : Nat)
    (hc : c < -15 ∨ 15 < c) :
    Nits.getChannelNumber c f b =
      Except.error ⟨"", c, some (-15, true), some (15, true)⟩ := by
  have h1 : ¬(-15 ≤ c ∧ c ≤ 15) := by omega
  simp only [Nits.getChannelNumber, rangeCheckIncl]
  rw [if_neg h1]
  rfl

/-!  Claim theorems. -/

/-- C1: the claim says a Bounded Series Queue keeps `len() <= capacity`
after every `push`/`extend` with the oldest elements silently dropped, and
that with capacity 0 every operation silently drops its input and never
fails. The code instead panics: `push` on a capacity-0 queue calls
`VecDeque::drain(0..1)` on an empty deque, and `extend` with a batch larger
than the capacity drains more elements than the queue holds — both
out-of-bounds drains, which panic (modelled as `none`). -/
theorem claim_C1_queue_panics :
    (QueueMaxLen.withCapacity Nat 0).push 5 = none ∧
    (QueueMaxLen.withCapacity Nat 1).extend [7, 8] = none := by
  exact ⟨rfl, rfl⟩

/-- C2 counterexample: at `relative = -15`, `car_count_front = 0`,
`car_count_back = 0` every range check passes, but the returned channel is
the wrapped `u32` value `2^32 - 14`, not the claimed mathematical value
`1 + car_count_front - |relative| = -14`. -/
theorem claim_C2_counterexample :
    (Nits.getChannelNumber (-15) 0 0).map (fun n => (n : Int)) ≠
      Except.ok (1 + (0 : Int) - 15) := by
  have h : (Nits.getChannelNumber (-15) 0 0).map (fun n => (n : Int)) =
      Except.ok (4294967282 : Int) := rfl
  rw [h]
  intro hcon
  rw [Except.ok.injEq] at hcon
  omega

/-- C2 amended: for `relative ∈ [-15,15]`, `car_count_front ∈ [0,15]` and
`car_count_back ∈ [0,15]`, `get_channel_number` (nits.rs revision) returns
`Ok` with `1 + car_count_front - |relative|` for negative `relative`
whenever that subtraction does not underflow (`|relative| ≤ 1 +
car_count_front`) and with the value wrapped modulo `2^32` when it does;
`Ok (31 + |relative| - car_count_back)` for positive `relative` (in
particular `channel_number(-1,f,b) = f` and `channel_number(1,f,b) =
31 + 1 - b`); `Ok 16` for `relative = 0`; and a RangeViolation for every
`relative` outside `[-15,15]`. -/
theorem claim_C2_amended (c : Int) (f b : Nat) (hf : f ≤ 15) (hb : b ≤ 15) :
    (c < 0 → -15 ≤ c → c.natAbs ≤ 1 + f →
        Nits.getChannelNumber c f b = Except.ok (1 + f - c.natAbs))
  ∧ (c < 0 → -15 ≤ c → 1 + f < c.natAbs →
        Nits.getChannelNumber c f b =
          Except.ok (1 + f + (4294967296 - c.natAbs)))
  ∧ (c = 0 → Nits.getChannelNumber c f b = Except.ok 16)
  ∧ (0 < c → c ≤ 15 →
        Nits.getChannelNumber c f b = Except.ok (31 + c.natAbs - b))
  ∧ ((c < -15 ∨ 15 < c) →
        ∃ e, Nits.getChannelNumber c f b = Except.error e) := by
  refine ⟨?_, ?_, ?_, ?_, ?_⟩
  · intro hneg hlo hsub
    rw [Nits.getChannelNumber_valid c f b hf hb hlo (by omega)]
    rw [if_pos hneg]
    have habs : c.natAbs ≤ 15 := by omega
    congr 1
    unfold sub32
    omega
  · intro hneg hlo hsub
    rw [Nits.getChannelNumber_valid c f b hf hb hlo (by omega)]
    rw [if_pos hneg]
    have habs : c.natAbs ≤ 15 := by omega
    congr 1
    unfold sub32
    omega
  · intro hzero
    subst hzero
    rw [Nits.getChannelNumber_valid 0 f b hf hb (by omega) (by omega)]
    rfl
  · intro hpos hhi
    rw [Nits.getChannelNumber_valid c f b hf hb (by omega) hhi]
    rw [if_neg (by omega), if_pos hpos]
    have habs : c.natAbs ≤ 15 := by omega
    congr 1
    unfold sub32
    omega
  · intro hout
    exact ⟨_, Nits.getChannelNumber_invalid c f b hout⟩

/-- C2 witness: the amended statement instantiated at `relative = -1`,
`car_count_front = 3`, `car_count_back = 2` (so the channel is
`1 + 3 - 1 = 3 = car_count_front`). -/
theorem claim_C2_amended_witness :
    (3 : Nat) ≤ 15 ∧ (2 : Nat) ≤ 15 ∧
    (((-1 : Int) < 0 → -15 ≤ (-1 : Int) → (-1 : Int).natAbs ≤ 1 + 3 →
        Nits.getChannelNumber (-1) 3 2 = Except.ok (1 + 3 - (-1 : Int).natAbs))
      ∧ ((-1 : Int) < 0 → -15 ≤ (-1 : Int) → 1 + 3 < (-1 : Int).natAbs →
          Nits.getChannelNumber (-1) 3 2 =
            Except.ok (1 + 3 + (4294967296 - (-1 : Int).natAbs)))
      ∧ ((-1 : Int) = 0 → Nits.getChannelNumber (-1) 3 2 = Except.ok 16)
      ∧ ((0 : Int) < -1 → (-1 : Int) ≤ 15 →
          Nits.getChannelNumber (-1) 3 2 =
            Except.ok (31 + (-1 : Int).natAbs - 2))
      ∧ (((-1 : Int) < -15 ∨ (15 : Int) < -1) →
          ∃ e, Nits.getChannelNumber (-1) 3 2 = Except.error e)) :=
  ⟨by decide, by decide, claim_C2_amended (-1) 3 2 (by decide) (by decide)⟩

/-- C3: the claim says `car_count_back` is validated against its own value,
so `car_count_back = 16` (or 999) must yield a RangeViolation. In the
`values.rs` revision wired into `add_data`, the third range check re-checks
`car_count_front` under the name `car_count_back` (values.rs lines 90-91),
so any out-of-range `car_count_back` passes: the call returns `Ok 16`. -/
theorem claim_C3_back_check_rechecks_front :
    ValuesRs.getChannelNumber 0 0 16 = Except.ok 16 ∧
    ValuesRs.getChannelNumber 0 0 999 = Except.ok 16 := by
  exact ⟨rfl, rfl⟩

/-- C4: the claim says that whenever range validation passes the unsigned
subtractions cannot underflow, naming `relative = -15`, `car_count_front
= 0` as an input that must fail with an error. In both revisions the checks
pass on that input and `1 + 0 - 15` underflows: the release-profile `u32`
arithmetic wraps and the call returns `Ok (2^32 - 14)` instead of an error
(a debug build panics on the same input). -/
theorem claim_C4_underflow_after_validation :
    ValuesRs.getChannelNumber (-15) 0 0 = Except.ok 4294967282 ∧
    Nits.getChannelNumber (-15) 0 0 = Except.ok 4294967282 := by
  exact ⟨rfl, rfl⟩

/-! Lemmas about growth and preservation during `add_data` (for C7, C10). -/

lemma tickStep_grow (nd : List (Nat × List Nat)) (len i front back : Nat)
    (acc : Finset Int × Finset Nat × List (Int × Nat)) (j : Int) :
    acc.1 ⊆ (tickStep nd len i front back acc j).1 ∧
    acc.2.1 ⊆ (tickStep nd len i front back acc j).2.1 := by
  unfold tickStep
  rcases ValuesRs.getChannelNumber j front back with e | ch
  · exact ⟨Finset.Subset.refl _, Finset.Subset.refl _⟩
  · simp only
    rcases lookupA nd ch with _ | channel
    · exact ⟨Finset.Subset.refl _, Finset.Subset.refl _⟩
    · simp only
      rcases channel[(i + channel.length - len)]? with _ | c
      · exact ⟨Finset.Subset.refl _, Finset.Subset.refl _⟩
      · exact ⟨Finset.subset_insert _ _, Finset.subset_insert _ _⟩

lemma tickFold_grow (nd : List (Nat × List Nat)) (len i front back : Nat)
    (l : List Int) (acc : Finset Int × Finset Nat × List (Int × Nat)) :
    acc.1 ⊆ (l.foldl (tickStep nd len i front back) acc).1 ∧
    acc.2.1 ⊆ (l.foldl (tickStep nd len i front back) acc).2.1 := by
  induction l generalizing acc with
  | nil => exact ⟨Finset.Subset.refl _, Finset.Subset.refl _⟩
  | cons hd tl ih =>
    rw [List.foldl_cons]
    have h1 := tickStep_grow nd len i front back acc hd
    have h2 := ih (tickStep nd len i front back acc hd)
    exact ⟨h1.1.trans h2.1, h1.2.trans h2.2⟩

lemma procCommonline_grow (nd : List (Nat × List Nat)) (len : Nat)
    (s : Values) (iw : Nat × Nat) (s2 : Values)
    (h : Values.procCommonline nd len s iw = some s2) :
    s.nitsSenders ⊆ s2.nitsSenders ∧
    s.nitsCommandTypes ⊆ s2.nitsCommandTypes := by
  unfold Values.procCommonline at h
  rw [Option.map_eq_some'] at h
  obtain ⟨tl, _, rfl⟩ := h
  have h1 := tickFold_grow nd len iw.1 (payload iw.2 % 16)
    (payload iw.2 / 32 % 16)
    (listRelatives (payload iw.2 % 16) (payload iw.2 / 32 % 16))
    (s.nitsSenders, insert (commandType iw.2) s.nitsCommandTypes, [])
  exact ⟨h1.1, (Finset.subset_insert _ _).trans h1.2⟩

lemma pushKey_fields (s : Values) (k : String) (vs : List Nat) (s2 : Values)
    (h : s.pushKey k vs = some s2) :
    s2.nitsSenders = s.nitsSenders ∧
    s2.nitsCommandTypes = s.nitsCommandTypes ∧
    s2.nitsTimeline = s.nitsTimeline ∧
    s2.settingsMaxLen = s.settingsMaxLen := by
  unfold Values.pushKey at h
  split at h
  · rw [Option.map_eq_some'] at h
    obtain ⟨q2, _, rfl⟩ := h
    exact ⟨rfl, rfl, rfl, rfl⟩
  · rw [Option.map_eq_some'] at h
    obtain ⟨q2, _, rfl⟩ := h
    exact ⟨rfl, rfl, rfl, rfl⟩

/-- Threading a binary preservation property through `List.foldlM` over the
`Option` monad. -/
lemma foldlM_induct {α : Type} (f : Values → α → Option Values)
    (P : Values → Values → Prop) (hrefl : ∀ s, P s s)
    (htrans : ∀ a b c, P a b → P b c → P a c)
    (hf : ∀ t a t2, f t a = some t2 → P t t2) :
    ∀ (l : List α) (s s2 : Values), l.foldlM f s = some s2 → P s s2 := by
  intro l
  induction l with
  | nil =>
    intro s s2 h
    rw [List.foldlM_nil] at h
    cases h
    exact hrefl s
  | cons hd tl ih =>
    intro s s2 h
    rw [List.foldlM_cons] at h
    cases hfs : f s hd with
    | none => rw [hfs] at h; cases h
    | some s1 =>
      rw [hfs] at h
      exact htrans _ _ _ (hf s hd s1 hfs) (ih s1 s2 h)

lemma decodePhase_grow (s : Values) (d : List (String × List Nat))
    (s2 : Values) (h : s.decodePhase d = some s2) :
    s.nitsSenders ⊆ s2.nitsSenders ∧
    s.nitsCommandTypes ⊆ s2.nitsCommandTypes := by
  unfold Values.decodePhase at h
  split at h
  · exact foldlM_induct _
      (fun a b => a.nitsSenders ⊆ b.nitsSenders ∧
        a.nitsCommandTypes ⊆ b.nitsCommandTypes)
      (fun s => ⟨Finset.Subset.refl _, Finset.Subset.refl _⟩)
      (fun a b c hab hbc => ⟨hab.1.trans hbc.1, hab.2.trans hbc.2⟩)
      (fun t a t2 ht => procCommonline_grow _ _ t a t2 ht)
      _ _ _ h
  · cases h
    exact ⟨Finset.Subset.refl _, Finset.Subset.refl _⟩

/-- C7: across any `add_data` ingestion call (and hence any sequence of
them) with no intervening retention change, the sender index and the
command-type index never shrink: the sets before the call are subsets of
the sets after it, even though the timeline itself evicts old ticks. -/
theorem claim_C7_index_monotone (s s2 : Values)
    (d : List (String × List Nat)) (h : s.addData d = some s2) :
    s.nitsSenders ⊆ s2.nitsSenders ∧
    s.nitsCommandTypes ⊆ s2.nitsCommandTypes := by
  unfold Values.addData at h
  rw [Option.bind_eq_some] at h
  obtain ⟨s1, h1, h2⟩ := h
  have g1 := decodePhase_grow s d s1 h1
  have g2 := foldlM_induct _
    (fun a b => a.nitsSenders ⊆ b.nitsSenders ∧
      a.nitsCommandTypes ⊆ b.nitsCommandTypes)
    (fun s => ⟨Finset.Subset.refl _, Finset.Subset.refl _⟩)
    (fun a b c hab hbc => ⟨hab.1.trans hbc.1, hab.2.trans hbc.2⟩)
    (fun t a t2 ht => by
      have hp := pushKey_fields t a.1 a.2 t2 ht
      refine ⟨?_, ?_⟩
      · rw [hp.1]
      · rw [hp.2.1])
    _ _ _ h2
  exact ⟨g1.1.trans g2.1, g1.2.trans g2.2⟩

/-- C7 witness: a concrete ingestion call on which the hypothesis holds and
the index sets grow (here from empty to nonempty). -/
theorem claim_C7_index_monotone_witness :
    ((Values.new 3).addData [("NITS N32", [0])] =
      some (((Values.new 3).addData [("NITS N32", [0])]).getD (Values.new 3)))
    ∧ (Values.new 3).nitsSenders ⊆
        (((Values.new 3).addData [("NITS N32", [0])]).getD
          (Values.new 3)).nitsSenders
    ∧ (Values.new 3).nitsCommandTypes ⊆
        (((Values.new 3).addData [("NITS N32", [0])]).getD
          (Values.new 3)).nitsCommandTypes := by
  have h : (Values.new 3).addData [("NITS N32", [0])] =
      some (((Values.new 3).addData [("NITS N32", [0])]).getD
        (Values.new 3)) := by decide
  have hc := claim_C7_index_monotone _ _ _ h
  exact ⟨h, hc.1, hc.2⟩

/-! Association-list and `pushKey` lemmas (for C10, C8). -/

lemma lookupA_cons [DecidableEq κ] (p : κ × β) (tl : List (κ × β)) (k : κ) :
    lookupA (p :: tl) k = if p.1 = k then some p.2 else lookupA tl k := rfl

lemma setA_cons [DecidableEq κ] (p : κ × β) (tl : List (κ × β)) (k : κ)
    (v : β) :
    setA (p :: tl) k v = (if p.1 = k then (k, v) else p) :: setA tl k v := by
  unfold setA
  rw [List.map_cons]

lemma lookupA_setA_self [DecidableEq κ] (l : List (κ × β)) (k : κ) (v : β)
    (h : (lookupA l k).isSome) : lookupA (setA l k v) k = some v := by
  induction l with
  | nil => simp [lookupA] at h
  | cons hd tl ih =>
    by_cases hk : hd.1 = k
    · rw [setA_cons, if_pos hk, lookupA_cons, if_pos rfl]
    · rw [lookupA_cons, if_neg hk] at h
      rw [setA_cons, if_neg hk, lookupA_cons, if_neg hk]
      exact ih h

lemma lookupA_setA_other [DecidableEq κ] (l : List (κ × β)) (k k2 : κ)
    (v : β) (hne : k2 ≠ k) : lookupA (setA l k2 v) k = lookupA l k := by
  induction l with
  | nil => rfl
  | cons hd tl ih =>
    by_cases hk : hd.1 = k2
    · rw [setA_cons, if_pos hk, lookupA_cons, lookupA_cons]
      rw [if_neg hne, if_neg (hk ▸ hne)]
      exact ih
    · rw [setA_cons, if_neg hk, lookupA_cons, lookupA_cons]
      by_cases hk2 : hd.1 = k
      · rw [if_pos hk2, if_pos hk2]
      · rw [if_neg hk2, if_neg hk2]
        exact ih

lemma lookupA_append_one [DecidableEq κ] (l : List (κ × β)) (k k2 : κ)
    (v : β) :
    lookupA (l ++ [(k2, v)]) k =
      ((lookupA l k).or (if k2 = k then some v else none)) := by
  induction l with
  | nil =>
    show (if k2 = k then some v else lookupA [] k) = _
    by_cases hk : k2 = k
    · rw [if_pos hk, if_pos hk]
      rfl
    · rw [if_neg hk, if_neg hk]
      rfl
  | cons hd tl ih =>
    rw [List.cons_append, lookupA_cons, lookupA_cons]
    by_cases hk : hd.1 = k
    · rw [if_pos hk, if_pos hk]
      rfl
    · rw [if_neg hk, if_neg hk]
      exact ih

lemma pushKey_lookup_self (s : Values) (k : String) (vs : List Nat)
    (s2 : Values) (h : s.pushKey k vs = some s2) :
    ∃ q2, ((lookupA s.values k).getD
        (QueueMaxLen.withCapacity Nat s.settingsMaxLen)).extend vs = some q2 ∧
      lookupA s2.values k = some q2 := by
  unfold Values.pushKey at h
  cases hq : lookupA s.values k with
  | some q =>
    rw [hq] at h
    rw [Option.map_eq_some'] at h
    obtain ⟨q2, hext, rfl⟩ := h
    exact ⟨q2, hext, lookupA_setA_self s.values k q2 (by rw [hq]; rfl)⟩
  | none =>
    rw [hq] at h
    rw [Option.map_eq_some'] at h
    obtain ⟨q2, hext, rfl⟩ := h
    refine ⟨q2, hext, ?_⟩
    show lookupA (s.values ++ [(k, q2)]) k = some q2
    rw [lookupA_append_one, hq, if_pos rfl]
    rfl

lemma pushKey_lookup_other (s : Values) (k k2 : String) (vs : List Nat)
    (s2 : Values) (hne : k2 ≠ k) (h : s.pushKey k2 vs = some s2) :
    lookupA s2.values k = lookupA s.values k := by
  unfold Values.pushKey at h
  cases hq : lookupA s.values k2 with
  | some q =>
    rw [hq] at h
    rw [Option.map_eq_some'] at h
    obtain ⟨q2, _, rfl⟩ := h
    exact lookupA_setA_other s.values k k2 q2 hne
  | none =>
    rw [hq] at h
    rw [Option.map_eq_some'] at h
    obtain ⟨q2, _, rfl⟩ := h
    show lookupA (s.values ++ [(k2, q2)]) k = lookupA s.values k
    rw [lookupA_append_one, if_neg hne]
    cases lookupA s.values k <;> rfl

lemma foldPush_preserve (d : List (String × List Nat)) :
    ∀ (s s2 : Values) (k : String), k ∉ d.map Prod.fst →
      d.foldlM (fun t kv => t.pushKey kv.1 kv.2) s = some s2 →
      lookupA s2.values k = lookupA s.values k ∧
        s2.settingsMaxLen = s.settingsMaxLen := by
  induction d with
  | nil =>
    intro s s2 k _ h
    rw [List.foldlM_nil] at h
    cases h
    exact ⟨rfl, rfl⟩
  | cons hd tl ih =>
    intro s s2 k hk h
    rw [List.foldlM_cons] at h
    cases hfs : s.pushKey hd.1 hd.2 with
    | none => rw [hfs] at h; cases h
    | some s1 =>
      rw [hfs] at h
      simp only [List.map_cons, List.mem_cons] at hk
      push_neg at hk
      have h1 := pushKey_lookup_other s k hd.1 hd.2 s1 (fun he => hk.1 he.symm) hfs
      have h2 := pushKey_fields s hd.1 hd.2 s1 hfs
      have h3 := ih s1 s2 k hk.2 h
      exact ⟨h3.1.trans h1, h3.2.trans h2.2.2.2⟩

lemma foldPush_mem (d : List (String × List Nat)) :
    ∀ (s s2 : Values), (d.map Prod.fst).Nodup →
      d.foldlM (fun t kv => t.pushKey kv.1 kv.2) s = some s2 →
      ∀ (k : String) (vs : List Nat), (k, vs) ∈ d →
        ∃ q2, ((lookupA s.values k).getD
            (QueueMaxLen.withCapacity Nat s.settingsMaxLen)).extend vs =
              some q2 ∧
          lookupA s2.values k = some q2 := by
  induction d with
  | nil =>
    intro s s2 _ _ k vs hmem
    cases hmem
  | cons hd tl ih =>
    intro s s2 hnodup h k vs hmem
    rw [List.foldlM_cons] at h
    cases hfs : s.pushKey hd.1 hd.2 with
    | none => rw [hfs] at h; cases h
    | some s1 =>
      rw [hfs] at h
      rw [List.map_cons, List.nodup_cons] at hnodup
      rcases List.mem_cons.mp hmem with he | hmem2
      · subst he
        obtain ⟨q2, hext, hl⟩ := pushKey_lookup_self s k vs s1 (by exact hfs)
        have hpre := foldPush_preserve tl s1 s2 k (by exact hnodup.1) h
        refine ⟨q2, hext, ?_⟩
        rw [hpre.1]
        exact hl
      · have hkne : hd.1 ≠ k := by
          intro he
          exact hnodup.1 (he ▸ (List.mem_map.mpr ⟨(k, vs), hmem2, rfl⟩))
        have h1 := pushKey_lookup_other s k hd.1 hd.2 s1 hkne hfs
        have h2 := pushKey_fields s hd.1 hd.2 s1 hfs
        obtain ⟨q2, hext, hl⟩ := ih s1 s2 hnodup.2 h k vs hmem2
        rw [h1, h2.2.2.2] at hext
        exact ⟨q2, hext, hl⟩

lemma procCommonline_values (nd : List (Nat × List Nat)) (len : Nat)
    (s : Values) (iw : Nat × Nat) (s2 : Values)
    (h : Values.procCommonline nd len s iw = some s2) :
    s2.values = s.values ∧ s2.settingsMaxLen = s.settingsMaxLen ∧
      s2.nitsTimeline.maxLen = s.nitsTimeline.maxLen := by
  unfold Values.procCommonline at h
  rw [Option.map_eq_some'] at h
  obtain ⟨tl, htl, rfl⟩ := h
  refine ⟨rfl, rfl, ?_⟩
  show tl.maxLen = s.nitsTimeline.maxLen
  unfold QueueMaxLen.push at htl
  split at htl
  · split at htl
    · cases htl
    · cases htl; rfl
  · cases htl; rfl

lemma decodePhase_values (s : Values) (d : List (String × List Nat))
    (s1 : Values) (h : s.decodePhase d = some s1) :
    s1.values = s.values ∧ s1.settingsMaxLen = s.settingsMaxLen ∧
      s1.nitsTimeline.maxLen = s.nitsTimeline.maxLen := by
  unfold Values.decodePhase at h
  split at h
  · exact foldlM_induct _
      (fun a b => b.values = a.values ∧ b.settingsMaxLen = a.settingsMaxLen ∧
        b.nitsTimeline.maxLen = a.nitsTimeline.maxLen)
      (fun s => ⟨rfl, rfl, rfl⟩)
      (fun a b c hab hbc =>
        ⟨hbc.1.trans hab.1, hbc.2.1.trans hab.2.1, hbc.2.2.trans hab.2.2⟩)
      (fun t a t2 ht => procCommonline_values _ _ t a t2 ht)
      _ _ _ h
  · cases h
    exact ⟨rfl, rfl, rfl⟩

/-- C10: the reserved NITS channels are not excluded from the ordinary
value store: every channel of the batch — `NITS N00`..`NITS N32` included —
has its samples appended by `extend` to a per-name series created with the
current retention length when absent, after which the name answers
`contains_key`, `values_for_key` and `get_last_value_for_key` like any
ordinary channel. -/
theorem claim_C10_nits_channels_stored (s s2 : Values)
    (d : List (String × List Nat)) (k : String) (vs : List Nat)
    (hmem : (k, vs) ∈ d) (hnodup : (d.map Prod.fst).Nodup)
    (h : s.addData d = some s2) :
    s2.containsKey k = true ∧
    ∃ q2, ((lookupA s.values k).getD
        (QueueMaxLen.withCapacity Nat s.settingsMaxLen)).extend vs = some q2 ∧
      s2.valuesForKey k = some q2.vec ∧
      s2.getLastValueForKey k = q2.vec.getLast? := by
  unfold Values.addData at h
  rw [Option.bind_eq_some] at h
  obtain ⟨s1, h1, h2⟩ := h
  have hv := decodePhase_values s d s1 h1
  obtain ⟨q2, hext, hl⟩ := foldPush_mem d s1 s2 hnodup h2 k vs hmem
  rw [hv.1, hv.2.1] at hext
  refine ⟨?_, q2, hext, ?_, ?_⟩
  · unfold Values.containsKey
    rw [hl]
    rfl
  · unfold Values.valuesForKey
    rw [hl]
    rfl
  · unfold Values.getLastValueForKey
    rw [hl]
    rfl

/-- C10 witness: ingesting the reserved channel name `NITS N05` stores its
samples in the ordinary per-name series. -/
theorem claim_C10_nits_channels_stored_witness :
    (("NITS N05", [1, 2]) ∈ [("NITS N05", ([1, 2] : List Nat))]) ∧
    (([("NITS N05", ([1, 2] : List Nat))].map Prod.fst).Nodup) ∧
    ((Values.new 2).addData [("NITS N05", [1, 2])] =
      some (((Values.new 2).addData [("NITS N05", [1, 2])]).getD
        (Values.new 2))) ∧
    ((((Values.new 2).addData [("NITS N05", [1, 2])]).getD
        (Values.new 2)).containsKey "NITS N05" = true ∧
      ∃ q2, ((lookupA (Values.new 2).values "NITS N05").getD
          (QueueMaxLen.withCapacity Nat
            (Values.new 2).settingsMaxLen)).extend [1, 2] = some q2 ∧
        (((Values.new 2).addData [("NITS N05", [1, 2])]).getD
          (Values.new 2)).valuesForKey "NITS N05" = some q2.vec ∧
        (((Values.new 2).addData [("NITS N05", [1, 2])]).getD
          (Values.new 2)).getLastValueForKey "NITS N05" =
            q2.vec.getLast?) := by
  have h : (Values.new 2).addData [("NITS N05", [1, 2])] =
      some (((Values.new 2).addData [("NITS N05", [1, 2])]).getD
        (Values.new 2)) := by decide
  exact ⟨by decide, by decide, h,
    claim_C10_nits_channels_stored _ _ _ _ _ (by decide) (by decide) h⟩

/-- Unfolding of `procCommonline` with the unpacked car counts abstracted:
substituting the hypothesised values makes the tick assembly computable. -/
lemma procCommonline_eval (nd : List (Nat × List Nat)) (len : Nat)
    (s : Values) (iw : Nat × Nat) (front back : Nat)
    (hf : payload iw.2 % 16 = front) (hb : payload iw.2 / 32 % 16 = back) :
    Values.procCommonline nd len s iw =
      (s.nitsTimeline.push ⟨iw.2,
        ((listRelatives front back).foldl (tickStep nd len iw.1 front back)
          (s.nitsSenders, insert (commandType iw.2) s.nitsCommandTypes,
            [])).2.2⟩).map
        (fun tl => { s with
          nitsSenders := ((listRelatives front back).foldl
            (tickStep nd len iw.1 front back)
            (s.nitsSenders, insert (commandType iw.2) s.nitsCommandTypes,
              [])).1,
          nitsCommandTypes := ((listRelatives front back).foldl
            (tickStep nd len iw.1 front back)
            (s.nitsSenders, insert (commandType iw.2) s.nitsCommandTypes,
              [])).2.1,
          nitsTimeline := tl }) := by
  subst hf
  subst hb
  rfl

/-- C5: a tick decoded from a commonline word whose payload unpacks to
`car_count_front = 2` (low 4 bits) and `car_count_back = 1` (bits 5-8),
with car channels 1, 2, 16 and 31 present at the time-aligned index, has a
command map binding exactly the relative counts -2, -1, 0, 1 to the words
read from channels 1, 2, 16 and 31 respectively. -/
theorem claim_C5_tick_mapping (w a1 a2 a16 a31 : Nat)
    (hfront : payload w % 16 = 2) (hback : payload w / 32 % 16 = 1) :
    (((Values.new 5).addData
        [("NITS N01", [a1]), ("NITS N02", [a2]), ("NITS N16", [a16]),
         ("NITS N31", [a31]), ("NITS N32", [w])]).map
      (fun s2 => s2.nitsTimeline.vec)) =
      some [⟨w, [(-2, a1), (-1, a2), (0, a16), (1, a31)]⟩] := by
  have hkey := procCommonline_eval
    [(1, [a1]), (2, [a2]), (16, [a16]), (31, [a31])] 1 (Values.new 5) (0, w)
    2 1 hfront hback
  have h2 : (Values.new 5).addData
      [("NITS N01", [a1]), ("NITS N02", [a2]), ("NITS N16", [a16]),
       ("NITS N31", [a31]), ("NITS N32", [w])] =
    ((Values.procCommonline [(1, [a1]), (2, [a2]), (16, [a16]), (31, [a31])]
        1 (Values.new 5) (0, w)).bind (fun s1 => some s1)).bind
      (fun s1 =>
        [("NITS N01", [a1]), ("NITS N02", [a2]), ("NITS N16", [a16]),
         ("NITS N31", [a31]), ("NITS N32", [w])].foldlM
          (fun t kv => t.pushKey kv.1 kv.2) s1) := rfl
  rw [h2, hkey]
  rfl

/-- C5 witness: the commonline word 34 (payload low 4 bits = 2, bits 5-8 =
1) with concrete channel words 11, 22, 33, 44. -/
theorem claim_C5_tick_mapping_witness :
    (payload 34 % 16 = 2) ∧ (payload 34 / 32 % 16 = 1) ∧
    (((Values.new 5).addData
        [("NITS N01", [11]), ("NITS N02", [22]), ("NITS N16", [33]),
         ("NITS N31", [44]), ("NITS N32", [34])]).map
      (fun s2 => s2.nitsTimeline.vec)) =
      some [⟨34, [(-2, 11), (-1, 22), (0, 33), (1, 44)]⟩] :=
  ⟨by decide, by decide,
    claim_C5_tick_mapping 34 11 22 33 44 (by decide) (by decide)⟩

/-! Lemmas about the `update_nits` scan (for C6). -/

lemma cmdFold_mem_fst (cs : List (Int × Nat)) (a : Finset Int × Finset Nat)
    (x : Int) :
    (x ∈ (cs.foldl
        (fun a p => (insert p.1 a.1, insert (commandType p.2) a.2)) a).1) ↔
      x ∈ a.1 ∨ ∃ p ∈ cs, p.1 = x := by
  induction cs generalizing a with
  | nil => simp
  | cons hd tl ih =>
    rw [List.foldl_cons, ih]
    simp only [Finset.mem_insert, List.mem_cons]
    constructor
    · rintro ((h | h) | ⟨p, hp, he⟩)
      · exact Or.inr ⟨hd, Or.inl rfl, h.symm⟩
      · exact Or.inl h
      · exact Or.inr ⟨p, Or.inr hp, he⟩
    · rintro (h | ⟨p, (rfl | hp), he⟩)
      · exact Or.inl (Or.inr h)
      · exact Or.inl (Or.inl he.symm)
      · exact Or.inr ⟨p, hp, he⟩

lemma cmdFold_mem_snd (cs : List (Int × Nat)) (a : Finset Int × Finset Nat)
    (x : Nat) :
    (x ∈ (cs.foldl
        (fun a p => (insert p.1 a.1, insert (commandType p.2) a.2)) a).2) ↔
      x ∈ a.2 ∨ ∃ p ∈ cs, commandType p.2 = x := by
  induction cs generalizing a with
  | nil => simp
  | cons hd tl ih =>
    rw [List.foldl_cons, ih]
    simp only [Finset.mem_insert, List.mem_cons]
    constructor
    · rintro ((h | h) | ⟨p, hp, he⟩)
      · exact Or.inr ⟨hd, Or.inl rfl, h.symm⟩
      · exact Or.inl h
      · exact Or.inr ⟨p, Or.inr hp, he⟩
    · rintro (h | ⟨p, (rfl | hp), he⟩)
      · exact Or.inl (Or.inr h)
      · exact Or.inl (Or.inl he.symm)
      · exact Or.inr ⟨p, hp, he⟩

lemma scanTicks_mem_fst (ts : List NitsTick) (a : Finset Int × Finset Nat)
    (x : Int) :
    (x ∈ (ts.foldl scanTickStep a).1) ↔
      x ∈ a.1 ∨ ∃ t ∈ ts, ∃ p ∈ t.commands, p.1 = x := by
  induction ts generalizing a with
  | nil => simp
  | cons hd tl ih =>
    rw [List.foldl_cons, ih]
    show (x ∈ (scanTickStep a hd).1 ∨ _) ↔ _
    unfold scanTickStep
    rw [cmdFold_mem_fst]
    simp only [List.mem_cons]
    constructor
    · rintro ((h | h) | ⟨t, ht, hp⟩)
      · exact Or.inl h
      · exact Or.inr ⟨hd, Or.inl rfl, h⟩
      · exact Or.inr ⟨t, Or.inr ht, hp⟩
    · rintro (h | ⟨t, (rfl | ht), hp⟩)
      · exact Or.inl (Or.inl h)
      · exact Or.inl (Or.inr hp)
      · exact Or.inr ⟨t, ht, hp⟩

lemma scanTicks_mem_snd (ts : List NitsTick) (a : Finset Int × Finset Nat)
    (x : Nat) :
    (x ∈ (ts.foldl scanTickStep a).2) ↔
      x ∈ a.2 ∨ ∃ t ∈ ts,
        x = commandType t.commonline ∨ ∃ p ∈ t.commands, commandType p.2 = x := by
  induction ts generalizing a with
  | nil => simp
  | cons hd tl ih =>
    rw [List.foldl_cons, ih]
    show (x ∈ (scanTickStep a hd).2 ∨ _) ↔ _
    unfold scanTickStep
    rw [cmdFold_mem_snd]
    simp only [Finset.mem_insert, List.mem_cons]
    constructor
    · rintro (((h | h) | h) | ⟨t, ht, hp⟩)
      · exact Or.inr ⟨hd, Or.inl rfl, Or.inl h⟩
      · exact Or.inl h
      · exact Or.inr ⟨hd, Or.inl rfl, Or.inr h⟩
      · exact Or.inr ⟨t, Or.inr ht, hp⟩
    · rintro (h | ⟨t, (rfl | ht), (hp | hp)⟩)
      · exact Or.inl (Or.inl (Or.inr h))
      · exact Or.inl (Or.inl (Or.inl hp))
      · exact Or.inl (Or.inr hp)
      · exact Or.inr ⟨t, ht, Or.inl hp⟩
      · exact Or.inr ⟨t, ht, Or.inr hp⟩

/-- C6: after a retention change (`set_max_len`, which resizes every series
and the timeline and then runs the `update_nits` rebuild), the sender index
is exactly the set of senders occurring in some retained (post-eviction)
tick's command map, and the command-type index is exactly the set of
commonline and per-car command types occurring in some retained tick — the
sets a from-scratch scan of the retained timeline window yields. -/
theorem claim_C6_rebuild_from_scratch (s : Values) (m : Nat) :
    (∀ x : Int, x ∈ (s.setMaxLen m).nitsSenders ↔
        ∃ t ∈ (s.setMaxLen m).nitsTimeline.vec, ∃ p ∈ t.commands, p.1 = x)
  ∧ (∀ x : Nat, x ∈ (s.setMaxLen m).nitsCommandTypes ↔
        ∃ t ∈ (s.setMaxLen m).nitsTimeline.vec,
          x = commandType t.commonline ∨
            ∃ p ∈ t.commands, commandType p.2 = x) := by
  constructor
  · intro x
    show x ∈ ((s.nitsTimeline.setMaxLen m).vec.foldl scanTickStep (∅, ∅)).1 ↔ _
    rw [scanTicks_mem_fst]
    simp
    rfl
  · intro x
    show x ∈ ((s.nitsTimeline.setMaxLen m).vec.foldl scanTickStep (∅, ∅)).2 ↔ _
    rw [scanTicks_mem_snd]
    simp
    rfl

/-! CSV error handling (C9). -/

/-- Digit value of a character (for the concrete decimal cell parser used
in the CSV counterexamples). -/
def charDigit (c : Char) : Option Nat :=
  if c = '0' then some 0 else if c = '1' then some 1 else if c = '2' then some 2
  else if c = '3' then some 3 else if c = '4' then some 4 else if c = '5' then some 5
  else if c = '6' then some 6 else if c = '7' then some 7 else if c = '8' then some 8
  else if c = '9' then some 9 else none

/-- A concrete decimal instance of the cell parser (`str::parse` succeeds on
digit strings, fails on empty or non-digit text). -/
def parseDec (s : String) : Option Nat :=
  if s.data.isEmpty then none
  else s.data.foldl
    (fun acc c => acc.bind (fun a => (charDigit c).map (fun d => 10 * a + d)))
    (some 0)

/-- A concrete decimal instance of the cell formatter (`{}` on a number). -/
def fmtDec (n : Nat) : String := String.mk (Nat.toDigits 10 n)

/-- C9 counterexample: the claim says malformed numeric text during CSV
load is never upgraded to a crash (`load_csv` does not panic on unparsable
cell text). Loading a file whose header is `k` and whose single data row
holds the unparsable cell `zzz` makes `load_csv` call
`"zzz".parse::<f32>().unwrap()`, which panics (modelled as `none`). -/
theorem claim_C9_counterexample :
    (Values.new 3).loadCsvLines parseDec [["k"], ["zzz"]] = none := by
  decide

/-- C9 amended: malformed numeric text during CSV load is upgraded to a
panic that aborts the whole load call (the `unwrap` at values.rs line 343),
rather than being surfaced as a recoverable result; a file that fails to
open is silently ignored by `load_csv` (values.rs line 333), while
`save_csv` does surface I/O errors as a `Result` value (its `?` operators).
Formally: as soon as some cell of the first data row that is zipped with a
header key fails to parse, the load returns `none` (the panic), whatever
the store and remaining rows are. -/
theorem claim_C9_amended (s : Values) (parse : String → Option Nat)
    (k : String) (ks : List String) (c : String) (cs : List String)
    (rows : List (List String)) (hp : parse c = none) :
    s.loadCsvLines parse ((k :: ks) :: (c :: cs) :: rows) = none := by
  have hb : buildData parse (k :: ks) (c :: cs) = none := by
    unfold buildData
    rw [List.zip_cons_cons, List.foldlM_cons, hp]
    rfl
  show (((c :: cs) :: rows).foldlM
      (fun st row => (buildData parse (k :: ks) row).bind
        (fun d => st.addData d)) s) = none
  rw [List.foldlM_cons]
  simp only [hb]
  rfl

/-- C9 witness: a parser that rejects the cell `x` makes the load of header
`a`, row `x` panic. -/
theorem claim_C9_amended_witness :
    ((fun _ => (none : Option Nat)) "x" = none) ∧
    (Values.new 1).loadCsvLines (fun _ => none) [["a"], ["x"]] = none :=
  ⟨rfl, claim_C9_amended (Values.new 1) (fun _ => none) "a" [] "x" [] [] rfl⟩

/-! CSV round-trip (C8). -/

lemma extend_no_evict (q : QueueMaxLen α) (vs : List α)
    (h : q.vec.length + vs.length ≤ q.maxLen) :
    q.extend vs = some ⟨q.vec ++ vs, q.maxLen⟩ := by
  unfold QueueMaxLen.extend
  rw [if_neg (by omega)]

lemma push_total (q : QueueMaxLen α) (v : α) (h : 1 ≤ q.maxLen) :
    ∃ q2, q.push v = some q2 ∧ q2.maxLen = q.maxLen := by
  unfold QueueMaxLen.push
  split
  · rw [if_neg (by omega)]
    exact ⟨_, rfl, rfl⟩
  · exact ⟨_, rfl, rfl⟩

lemma procCommonline_total (nd : List (Nat × List Nat)) (len : Nat)
    (s : Values) (iw : Nat × Nat) (h : 1 ≤ s.nitsTimeline.maxLen) :
    ∃ s2, Values.procCommonline nd len s iw = some s2 := by
  obtain ⟨tl, htl, _⟩ := push_total s.nitsTimeline
    ⟨iw.2, ((listRelatives (payload iw.2 % 16) (payload iw.2 / 32 % 16)).foldl
      (tickStep nd len iw.1 (payload iw.2 % 16) (payload iw.2 / 32 % 16))
      (s.nitsSenders, insert (commandType iw.2) s.nitsCommandTypes,
        [])).2.2⟩ h
  rw [procCommonline_eval nd len s iw (payload iw.2 % 16)
    (payload iw.2 / 32 % 16) rfl rfl, htl]
  exact ⟨_, rfl⟩

lemma foldlM_total {α : Type} (f : Values → α → Option Values)
    (Inv : Values → Prop)
    (hf : ∀ t a, Inv t → ∃ t2, f t a = some t2 ∧ Inv t2) :
    ∀ (l : List α) (s : Values), Inv s →
      ∃ s2, l.foldlM f s = some s2 ∧ Inv s2 := by
  intro l
  induction l with
  | nil =>
    intro s hs
    refine ⟨s, ?_, hs⟩
    rw [List.foldlM_nil]
    rfl
  | cons hd tl ih =>
    intro s hs
    obtain ⟨s1, h1, hInv1⟩ := hf s hd hs
    obtain ⟨s2, h2, hInv2⟩ := ih s1 hInv1
    refine ⟨s2, ?_, hInv2⟩
    rw [List.foldlM_cons, h1]
    exact h2

lemma decodePhase_total (s : Values) (d : List (String × List Nat))
    (h : 1 ≤ s.nitsTimeline.maxLen) :
    ∃ s1, s.decodePhase d = some s1 := by
  unfold Values.decodePhase
  split
  next n32 heq =>
    obtain ⟨s2, h2, _⟩ := foldlM_total
      (Values.procCommonline
        ((List.range 32).filterMap
          (fun i => (lookupA d (nitsName i)).map (fun ch => (i, ch))))
        n32.length)
      (fun t => 1 ≤ t.nitsTimeline.maxLen)
      (fun t a ht => by
        obtain ⟨t2, ht2⟩ := procCommonline_total
          ((List.range 32).filterMap
            (fun i => (lookupA d (nitsName i)).map (fun ch => (i, ch))))
          n32.length t a ht
        refine ⟨t2, ht2, ?_⟩
        have hv := (procCommonline_values _ _ t a t2 ht2).2.2
        show 1 ≤ t2.nitsTimeline.maxLen
        omega) n32.enum s h
    exact ⟨s2, h2⟩
  next => exact ⟨s, rfl⟩

lemma pushKey_total (st : Values) (k : String) (vs : List Nat)
    (h : (lookupA st.values k = none ∧ vs.length ≤ st.settingsMaxLen) ∨
      (∃ w : List Nat, lookupA st.values k = some ⟨w, st.settingsMaxLen⟩ ∧
        w.length + vs.length ≤ st.settingsMaxLen)) :
    ∃ st2, st.pushKey k vs = some st2 := by
  unfold Values.pushKey
  rcases h with ⟨hn, hlen⟩ | ⟨w, hsome, hlen⟩
  · refine ⟨{ st with
      values := st.values ++ [(k, ⟨vs, st.settingsMaxLen⟩)] }, ?_⟩
    rw [hn]
    show Option.map
        (fun q2 => { st with values := st.values ++ [(k, q2)] })
        ((QueueMaxLen.withCapacity Nat st.settingsMaxLen).extend vs) = _
    rw [extend_no_evict _ _ (by
      show (0 : Nat) + vs.length ≤ st.settingsMaxLen
      omega)]
    rfl
  · refine ⟨{ st with
      values := setA st.values k ⟨w ++ vs, st.settingsMaxLen⟩ }, ?_⟩
    rw [hsome]
    show Option.map
        (fun q2 => { st with values := setA st.values k q2 })
        ((QueueMaxLen.mk w st.settingsMaxLen).extend vs) = _
    rw [extend_no_evict _ _ (by
      show w.length + vs.length ≤ st.settingsMaxLen
      omega)]
    rfl

lemma foldPush_row_total (m : Nat) :
    ∀ (kl : List (String × List Nat)) (st : Values),
      (kl.map Prod.fst).Nodup →
      st.settingsMaxLen = m →
      (∀ p ∈ kl, p.2.length ≤ m ∧
        (lookupA st.values p.1 = none ∨
          ∃ w : List Nat, lookupA st.values p.1 = some ⟨w, m⟩ ∧
            w.length + p.2.length ≤ m)) →
      ∃ st2, kl.foldlM (fun t kv => t.pushKey kv.1 kv.2) st = some st2 := by
  intro kl
  induction kl with
  | nil =>
    intro st _ _ _
    exact ⟨st, rfl⟩
  | cons p tl ih =>
    intro st hnodup hsm hpre
    obtain ⟨hplen, hpq⟩ := hpre p (List.mem_cons_self p tl)
    have h1 : ∃ st1, st.pushKey p.1 p.2 = some st1 := by
      apply pushKey_total
      rcases hpq with hn | ⟨w, hw, hlen⟩
      · exact Or.inl ⟨hn, by omega⟩
      · refine Or.inr ⟨w, ?_, by omega⟩
        rw [hsm]
        exact hw
    obtain ⟨st1, h1⟩ := h1
    rw [List.map_cons, List.nodup_cons] at hnodup
    have hfields := pushKey_fields st p.1 p.2 st1 h1
    obtain ⟨st2, h2⟩ := ih st1 hnodup.2 (hfields.2.2.2.trans hsm)
      (fun q hq => by
        have hpre2 := hpre q (List.mem_cons_of_mem p hq)
        refine ⟨hpre2.1, ?_⟩
        have hne : p.1 ≠ q.1 := by
          intro he
          apply hnodup.1
          rw [he]
          exact List.mem_map.mpr ⟨q, hq, rfl⟩
        have hlook := pushKey_lookup_other st q.1 p.1 p.2 st1 hne h1
        rw [hlook]
        exact hpre2.2)
    refine ⟨st2, ?_⟩
    rw [List.foldlM_cons, h1]
    exact h2

lemma buildData_go (parse : String → Option Nat) (fmt : Nat → String)
    (hpf : ∀ x, parse (fmt x) = some x) (g : String → Nat) :
    ∀ (ks : List String) (acc : List (String × List Nat)),
      ks.Nodup → (∀ k ∈ ks, lookupA acc k = none) →
      (ks.zip (ks.map (fun k => fmt (g k)))).foldlM
        (fun acc kv => (parse kv.2).map (fun v => upsertA acc kv.1 [v])) acc =
        some (acc ++ ks.map (fun k => (k, [g k]))) := by
  intro ks
  induction ks with
  | nil =>
    intro acc _ _
    simp
  | cons k0 tl ih =>
    intro acc hnodup hnone
    rw [List.map_cons, List.zip_cons_cons, List.foldlM_cons, hpf (g k0)]
    have hu : upsertA acc k0 [g k0] = acc ++ [(k0, [g k0])] := by
      unfold upsertA
      rw [hnone k0 (List.mem_cons_self k0 tl)]
      rfl
    show (tl.zip (tl.map (fun k => fmt (g k)))).foldlM
        (fun acc kv => (parse kv.2).map (fun v => upsertA acc kv.1 [v]))
        (upsertA acc k0 [g k0]) = _
    rw [hu]
    rw [List.nodup_cons] at hnodup
    rw [ih (acc ++ [(k0, [g k0])]) hnodup.2 (fun k hk => by
      rw [lookupA_append_one]
      rw [hnone k (List.mem_cons_of_mem k0 hk)]
      rw [if_neg (fun he => hnodup.1 (by rw [he]; exact hk))]
      rfl)]
    rw [List.map_cons, List.append_assoc]
    rfl

lemma buildData_roundtrip (parse : String → Option Nat) (fmt : Nat → String)
    (hpf : ∀ x, parse (fmt x) = some x) (g : String → Nat) (ks : List String)
    (hnodup : ks.Nodup) :
    buildData parse ks (ks.map (fun k => fmt (g k))) =
      some (ks.map (fun k => (k, [g k]))) := by
  unfold buildData
  have hb := buildData_go parse fmt hpf g ks [] hnodup (fun k _ => rfl)
  rw [hb]
  rw [List.nil_append]

/-- Invariant carried through a CSV load into a fresh store of retention
`m`. -/
def LoadInv (m : Nat) (st : Values) : Prop :=
  st.settingsMaxLen = m ∧ st.nitsTimeline.maxLen = m

/-- State of the tracked channels after `r` loaded rows: each channel holds
the first `r` samples of its original column (absent before the first
row). -/
def KeyState (ks : List String) (colf : String → List Nat) (m r : Nat)
    (st : Values) : Prop :=
  ∀ k ∈ ks, (r = 0 ∧ lookupA st.values k = none) ∨
    lookupA st.values k = some ⟨(colf k).take r, m⟩

lemma foldPush_fields (kl : List (String × List Nat)) (st st2 : Values)
    (h : kl.foldlM (fun t kv => t.pushKey kv.1 kv.2) st = some st2) :
    st2.settingsMaxLen = st.settingsMaxLen ∧
      st2.nitsTimeline = st.nitsTimeline :=
  foldlM_induct _
    (fun a b => b.settingsMaxLen = a.settingsMaxLen ∧
      b.nitsTimeline = a.nitsTimeline)
    (fun _ => ⟨rfl, rfl⟩)
    (fun _ _ _ hab hbc => ⟨hbc.1.trans hab.1, hbc.2.trans hab.2⟩)
    (fun t a t2 ht => ⟨(pushKey_fields t a.1 a.2 t2 ht).2.2.2,
      (pushKey_fields t a.1 a.2 t2 ht).2.2.1⟩) kl st st2 h

lemma load_row_step (m L : Nat) (hm : 1 ≤ m) (hL : L ≤ m)
    (ks : List String) (hnodup : ks.Nodup) (colf : String → List Nat)
    (hcol : ∀ k ∈ ks, (colf k).length = L)
    (parse : String → Option Nat) (fmt : Nat → String)
    (hpf : ∀ x, parse (fmt x) = some x)
    (r : Nat) (hr : r < L) (st : Values)
    (hInv : LoadInv m st) (hKS : KeyState ks colf m r st) :
    ∃ st2, (buildData parse ks
        (ks.map (fun k => fmt ((colf k).getD r 0)))).bind
        (fun d => st.addData d) = some st2 ∧
      LoadInv m st2 ∧ KeyState ks colf m (r + 1) st2 := by
  rw [buildData_roundtrip parse fmt hpf (fun k => (colf k).getD r 0) ks hnodup]
  have htl1 : 1 ≤ st.nitsTimeline.maxLen := by
    rw [hInv.2]
    omega
  obtain ⟨s1, h1⟩ := decodePhase_total st
    (ks.map (fun k => (k, [(colf k).getD r 0]))) htl1
  have hv := decodePhase_values st _ s1 h1
  have hnodup2 : ((ks.map (fun k => (k, [(colf k).getD r 0]))).map
      Prod.fst).Nodup := by
    rw [List.map_map]
    have hid : (Prod.fst ∘ fun k : String => (k, [(colf k).getD r 0])) =
        fun k : String => k := rfl
    rw [hid, List.map_id']
    exact hnodup
  obtain ⟨st2, h2⟩ := foldPush_row_total m
    (ks.map (fun k => (k, [(colf k).getD r 0]))) s1 hnodup2
    (hv.2.1.trans hInv.1)
    (fun p hp => by
      obtain ⟨k, hk, rfl⟩ := List.mem_map.mp hp
      refine ⟨by
        show (1 : Nat) ≤ m
        omega, ?_⟩
      rcases hKS k hk with ⟨_, hnone⟩ | hsome
      · exact Or.inl (by rw [hv.1]; exact hnone)
      · refine Or.inr ⟨(colf k).take r, by rw [hv.1]; exact hsome, ?_⟩
        have hlt : ((colf k).take r).length = r := by
          rw [List.length_take]
          have := hcol k hk
          omega
        simp only [List.length_singleton]
        omega)
  refine ⟨st2, ?_, ?_, ?_⟩
  · show st.addData (ks.map (fun k => (k, [(colf k).getD r 0]))) = some st2
    unfold Values.addData
    rw [h1]
    exact h2
  · have hfields := foldPush_fields _ s1 st2 h2
    exact ⟨hfields.1.trans (hv.2.1.trans hInv.1),
      by rw [hfields.2]; exact hv.2.2.trans hInv.2⟩
  · intro k hk
    right
    obtain ⟨q2, hext, hlook⟩ := foldPush_mem _ s1 st2 hnodup2 h2 k
      [(colf k).getD r 0] (List.mem_map.mpr ⟨k, hk, rfl⟩)
    have hkL : (colf k).length = L := hcol k hk
    have hgetr : (colf k)[r]? = some ((colf k).getD r 0) := by
      rw [List.getElem?_eq_getElem (by omega)]
      rw [List.getD_eq_getElem (colf k) 0 (by omega)]
    have htake : (colf k).take (r + 1) =
        (colf k).take r ++ [(colf k).getD r 0] := by
      rw [List.take_succ, hgetr]
      rfl
    rcases hKS k hk with ⟨hr0, hnone⟩ | hsome
    · subst hr0
      rw [hv.1, hnone, Option.getD_none] at hext
      rw [extend_no_evict _ _ (by
        show (0 : Nat) + 1 ≤ s1.settingsMaxLen
        rw [hv.2.1.trans hInv.1]
        omega)] at hext
      rw [Option.some.injEq] at hext
      rw [hlook, ← hext, htake]
      show some (⟨[] ++ [(colf k).getD 0 0], s1.settingsMaxLen⟩ :
        QueueMaxLen Nat) = _
      rw [hv.2.1.trans hInv.1]
      rfl
    · rw [hv.1, hsome, Option.getD_some] at hext
      rw [extend_no_evict _ _ (by
        show ((colf k).take r).length + 1 ≤ m
        rw [List.length_take]
        omega)] at hext
      rw [Option.some.injEq] at hext
      rw [hlook, ← hext, htake]

lemma load_rows (m L : Nat) (hm : 1 ≤ m) (hL : L ≤ m)
    (ks : List String) (hnodup : ks.Nodup) (colf : String → List Nat)
    (hcol : ∀ k ∈ ks, (colf k).length = L)
    (parse : String → Option Nat) (fmt : Nat → String)
    (hpf : ∀ x, parse (fmt x) = some x) :
    ∀ (n r : Nat), r + n = L → ∀ (st : Values), LoadInv m st →
      KeyState ks colf m r st →
      ∃ st2, ((List.range' r n).map
          (fun r2 => ks.map (fun k => fmt ((colf k).getD r2 0)))).foldlM
          (fun st row => (buildData parse ks row).bind (fun d => st.addData d))
          st = some st2 ∧
        LoadInv m st2 ∧ KeyState ks colf m L st2 := by
  intro n
  induction n with
  | zero =>
    intro r hr st hInv hKS
    refine ⟨st, rfl, hInv, ?_⟩
    have hrL : r = L := by omega
    rw [← hrL]
    exact hKS
  | succ n ih =>
    intro r hr st hInv hKS
    rw [List.range'_succ r n 1, List.map_cons, List.foldlM_cons]
    obtain ⟨st1, h1, hInv1, hKS1⟩ := load_row_step m L hm hL ks hnodup colf
      hcol parse fmt hpf r (by omega) st hInv hKS
    obtain ⟨st2, h2, hInv2, hKS2⟩ := ih (r + 1) (by omega) st1 hInv1 hKS1
    refine ⟨st2, ?_, hInv2, hKS2⟩
    simp only [h1]
    exact h2

lemma filterMap_eq_map_of {γ : Type} (f : String → Option γ)
    (g : String → γ) :
    ∀ (l : List String), (∀ k ∈ l, f k = some (g k)) →
      l.filterMap f = l.map g := by
  intro l
  induction l with
  | nil => intro _; rfl
  | cons k0 tl ih =>
    intro hf
    rw [List.filterMap_cons, hf k0 (List.mem_cons_self k0 tl)]
    rw [ih (fun k hk => hf k (List.mem_cons_of_mem k0 hk))]
    rfl

lemma foldl_max_const (L : Nat) :
    ∀ (cols : List (List Nat)) (acc : Nat),
      (∀ v ∈ cols, v.length = L) → cols ≠ [] →
      cols.foldl (fun m v => max m v.length) acc = max acc L := by
  intro cols
  induction cols with
  | nil =>
    intro acc _ h
    exact absurd rfl h
  | cons v tl ih =>
    intro acc hall _
    rw [List.foldl_cons]
    by_cases htl : tl = []
    · subst htl
      rw [List.foldl_nil, hall v (List.mem_cons_self v [])]
    · rw [ih (max acc v.length) (fun u hu => hall u (List.mem_cons_of_mem v hu)) htl]
      rw [hall v (List.mem_cons_self v tl), Nat.max_assoc, Nat.max_self]

lemma emitRowGo_uniform (fmt : Nat → String) (L r : Nat) (hr : r < L) :
    ∀ (rest : List (List Nat)), (∀ v ∈ rest, v.length = L) →
      ∀ (i : Nat), i ≠ 0 → ∀ (done : List String) (cur : String),
      emitRowGo fmt L r i done cur rest =
        (done ++ [cur]) ++ rest.map (fun v => fmt (v.getD r 0)) := by
  intro rest
  induction rest with
  | nil =>
    intro _ i _ done cur
    show done ++ [cur] = (done ++ [cur]) ++ []
    rw [List.append_nil]
  | cons v tl ih =>
    intro hall i hi done cur
    have hv : v.length = L := hall v (List.mem_cons_self v tl)
    unfold emitRowGo
    rw [hv, Nat.sub_self, Nat.sub_zero]
    rw [if_neg (by omega)]
    rw [List.getElem?_eq_getElem (by omega)]
    show (if i = 0 then emitRowGo fmt L r (i + 1) done (cur ++ fmt v[r]) tl
      else emitRowGo fmt L r (i + 1) (done ++ [cur]) (fmt v[r]) tl) = _
    rw [if_neg hi]
    rw [ih (fun u hu => hall u (List.mem_cons_of_mem v hu)) (i + 1)
      (by omega) (done ++ [cur]) (fmt v[r])]
    rw [List.map_cons, List.getD_eq_getElem v 0 (by omega)]
    simp

lemma emitRow_uniform (fmt : Nat → String) (cols : List (List Nat))
    (L r : Nat) (hr : r < L) (hall : ∀ v ∈ cols, v.length = L)
    (hne : cols ≠ []) :
    emitRow fmt cols L r = cols.map (fun v => fmt (v.getD r 0)) := by
  cases cols with
  | nil => exact absurd rfl hne
  | cons v tl =>
    have hv : v.length = L := hall v (List.mem_cons_self v tl)
    unfold emitRow emitRowGo
    rw [hv, Nat.sub_self, Nat.sub_zero]
    rw [if_neg (by omega)]
    rw [List.getElem?_eq_getElem (by omega)]
    show (if (0 : Nat) = 0 then
        emitRowGo fmt L r (0 + 1) [] ("" ++ fmt v[r]) tl
      else emitRowGo fmt L r (0 + 1) ([] ++ [""]) (fmt v[r]) tl) = _
    rw [if_pos rfl]
    rw [emitRowGo_uniform fmt L r hr tl
      (fun u hu => hall u (List.mem_cons_of_mem v hu)) 1 (by omega)
      [] ("" ++ fmt v[r])]
    rw [List.nil_append, String.empty_append]
    rw [List.map_cons, List.getD_eq_getElem v 0 (by omega)]
    rfl

lemma saveCsv_uniform (s : Values) (fmt : Nat → String) (ks : List String)
    (L : Nat) (hne : ks ≠ [])
    (hlen : ∀ k ∈ ks, ∃ q, lookupA s.values k = some q ∧ q.vec.length = L) :
    s.saveCsvLines fmt ks =
      ks :: (List.range L).map
        (fun r => ks.map
          (fun k => fmt (((s.valuesForKey k).getD []).getD r 0))) := by
  have hpresent : ks.filter (fun k => (lookupA s.values k).isSome) = ks :=
    List.filter_eq_self.mpr (fun k hk => by
      obtain ⟨q, hq, _⟩ := hlen k hk
      rw [hq]
      rfl)
  have hcols : ks.filterMap (fun k => s.valuesForKey k) =
      ks.map (fun k => (s.valuesForKey k).getD []) :=
    filterMap_eq_map_of _ _ ks (fun k hk => by
      obtain ⟨q, hq, _⟩ := hlen k hk
      unfold Values.valuesForKey
      rw [hq]
      rfl)
  have hlens : ∀ v ∈ ks.map (fun k => (s.valuesForKey k).getD []),
      v.length = L := fun v hv => by
    obtain ⟨k, hk, rfl⟩ := List.mem_map.mp hv
    obtain ⟨q, hq, hql⟩ := hlen k hk
    unfold Values.valuesForKey
    rw [hq]
    exact hql
  have hcne : ks.map (fun k => (s.valuesForKey k).getD []) ≠ [] := by
    intro hmapnil
    exact hne (List.map_eq_nil_iff.mp hmapnil)
  have hmax : (ks.map (fun k => (s.valuesForKey k).getD [])).foldl
      (fun m v => max m v.length) 0 = L := by
    rw [foldl_max_const L _ 0 hlens hcne, Nat.zero_max]
  unfold Values.saveCsvLines
  rw [hpresent, hcols, hmax]
  congr 1
  apply List.map_congr_left
  intro r hr
  rw [List.mem_range] at hr
  rw [emitRow_uniform fmt _ L r hr hlens hcne]
  rw [List.map_map]
  rfl

/-- C8 counterexample: the claim says `save_csv` followed by `load_csv`
into a fresh store with the same retention reproduces the per-channel
trailing samples for every store state. For a store where channel `a`
retains 1 sample and channel `b` retains 2, the save right-aligns the
columns and writes a blank leading cell — and the very first written row
even carries a spurious extra separator (`save_csv` writes `","` for a
blank first column and then `",20"`), so the load hits an empty cell,
`"".parse::<f32>().unwrap()` panics, and nothing is reproduced. -/
theorem claim_C8_counterexample :
    (Values.new 3).loadCsvLines parseDec
      ((Values.mk [("a", ⟨[10], 3⟩), ("b", ⟨[20, 21], 3⟩)] 3 ⟨[], 3⟩ ∅
        ∅).saveCsvLines fmtDec ["a", "b"]) = none := by
  decide

/-- C8 amended: the round-trip does hold on the states the written format
survives: if every selected channel is present with the same number `L` of
retained samples (no blank cells are written), `L` is at most the retention
`m`, `m ≥ 1`, the selected keys are distinct, and the cell formatter/parser
round-trip (`parse (fmt x) = some x`, as Rust's f32 Display/FromStr pair
does), then loading the saved file into a fresh store of retention `m`
succeeds and reproduces exactly the retained samples of every selected
channel. -/
theorem claim_C8_amended (s : Values) (m L : Nat) (ks : List String)
    (fmt : Nat → String) (parse : String → Option Nat)
    (hpf : ∀ x, parse (fmt x) = some x)
    (hnodup : ks.Nodup)
    (hlen : ∀ k ∈ ks, ∃ q, lookupA s.values k = some q ∧ q.vec.length = L)
    (hL : L ≤ m) (hm : 1 ≤ m) :
    ∃ s2, (Values.new m).loadCsvLines parse (s.saveCsvLines fmt ks) =
        some s2 ∧
      ∀ k ∈ ks, (s2.valuesForKey k).getD [] = (s.valuesForKey k).getD [] := by
  cases ks with
  | nil =>
    refine ⟨Values.new m, rfl, ?_⟩
    intro k hk
    cases hk
  | cons k0 ks2 =>
    have hcol : ∀ k ∈ (k0 :: ks2),
        ((fun k2 => (s.valuesForKey k2).getD []) k).length = L := by
      intro k hk
      obtain ⟨q, hq, hql⟩ := hlen k hk
      show ((s.valuesForKey k).getD []).length = L
      unfold Values.valuesForKey
      rw [hq]
      exact hql
    rw [saveCsv_uniform s fmt (k0 :: ks2) L (by simp) hlen]
    obtain ⟨s2, h2, hInv2, hKS2⟩ := load_rows m L hm hL (k0 :: ks2) hnodup
      (fun k2 => (s.valuesForKey k2).getD []) hcol parse fmt hpf L 0
      (by omega) (Values.new m) ⟨rfl, rfl⟩
      (fun k hk => Or.inl ⟨rfl, rfl⟩)
    refine ⟨s2, ?_, ?_⟩
    · show ((List.range L).map
          (fun r => (k0 :: ks2).map
            (fun k => fmt (((s.valuesForKey k).getD []).getD r 0)))).foldlM
          (fun st row => (buildData parse (k0 :: ks2) row).bind
            (fun d => st.addData d)) (Values.new m) = some s2
      rw [List.range_eq_range']
      exact h2
    · intro k hk
      rcases hKS2 k hk with ⟨hL0, hnone⟩ | hsome
      · have hcl := hcol k hk
        rw [hL0] at hcl
        have hgk : (s.valuesForKey k).getD [] = [] :=
          List.eq_nil_of_length_eq_zero hcl
        rw [hgk]
        show ((lookupA s2.values k).map QueueMaxLen.vec).getD [] = []
        rw [hnone]
        rfl
      · show ((lookupA s2.values k).map QueueMaxLen.vec).getD [] =
          (s.valuesForKey k).getD []
        rw [hsome]
        show ((s.valuesForKey k).getD []).take L = (s.valuesForKey k).getD []
        have hcl := hcol k hk
        show ((s.valuesForKey k).getD []).take L = (s.valuesForKey k).getD []
        rw [show L = ((s.valuesForKey k).getD []).length from hcl.symm]
        exact List.take_length _

/-- A cell coding whose round-trip is provable: `n` is written as `n + 1`
repetitions of `a`. -/
def fmtRep (n : Nat) : String := String.mk (List.replicate (n + 1) 'a')

/-- Parser matching `fmtRep`: the empty cell fails, otherwise the value is
the length minus one. -/
def parseRep (s : String) : Option Nat :=
  if s.data.length = 0 then none else some (s.data.length - 1)

lemma parseRep_fmtRep : ∀ x, parseRep (fmtRep x) = some x := by
  intro x
  show (if (List.replicate (x + 1) 'a').length = 0 then none
    else some ((List.replicate (x + 1) 'a').length - 1)) = some x
  rw [List.length_replicate]
  rw [if_neg (by omega)]
  simp

/-- C8 witness: a store with one channel `a` holding two samples, retention
4, and the provably round-tripping cell coding. -/
theorem claim_C8_amended_witness :
    (∀ x, parseRep (fmtRep x) = some x) ∧
    (["a"].Nodup) ∧
    (∀ k ∈ ["a"], ∃ q,
      lookupA (Values.mk [("a", ⟨[5, 6], 4⟩)] 4 ⟨[], 4⟩ ∅ ∅).values k =
        some q ∧ q.vec.length = 2) ∧
    ((2 : Nat) ≤ 4) ∧ ((1 : Nat) ≤ 4) ∧
    ∃ s2, (Values.new 4).loadCsvLines parseRep
        ((Values.mk [("a", ⟨[5, 6], 4⟩)] 4 ⟨[], 4⟩ ∅ ∅).saveCsvLines
          fmtRep ["a"]) = some s2 ∧
      ∀ k ∈ ["a"], (s2.valuesForKey k).getD [] =
        ((Values.mk [("a", ⟨[5, 6], 4⟩)] 4 ⟨[], 4⟩ ∅ ∅).valuesForKey
          k).getD [] := by
  have hlen2 : ∀ k ∈ ["a"], ∃ q,
      lookupA (Values.mk [("a", ⟨[5, 6], 4⟩)] 4 ⟨[], 4⟩ ∅ ∅).values k =
        some q ∧ q.vec.length = 2 := by
    intro k hk
    rw [List.mem_singleton] at hk
    subst hk
    exact ⟨⟨[5, 6], 4⟩, rfl, rfl⟩
  exact ⟨parseRep_fmtRep, by decide, hlen2, by decide, by decide,
    claim_C8_amended (Values.mk [("a", ⟨[5, 6], 4⟩)] 4 ⟨[], 4⟩ ∅ ∅) 4 2
      ["a"] fmtRep parseRep parseRep_fmtRep (by decide) hlen2 (by decide)
      (by decide)⟩
